import Mathlib

/-!
Shallow embedding of the configuration-merge and marketplace-lifecycle core
of the `nova` CLI (Python), together with proofs about the embedded
operations.

YAML/JSON documents are modelled by the inductive `Value`; Python `dict`s
are insertion-ordered association lists (`Dict`), with `dict[key] = v`
updating in place when the key exists and appending otherwise, exactly as
CPython dictionaries behave.  External effects (filesystem, network,
subprocess clone) are abstracted into explicit state records and function
parameters; everything else is translated directly from the source files
named in the doc comments.
-/

namespace Nova

/-- YAML/JSON scalar and collection values (`yaml.safe_load` / `json.loads`
results). -/
inductive Value where
  | null : Value
  | bool (b : Bool) : Value
  | int (n : Int) : Value
  | str (s : String) : Value
  | list (xs : List Value) : Value
  | dict (kvs : List (String × Value)) : Value
deriving Repr

/-- A Python `dict[str, object]`: insertion-ordered association list with
unique keys. -/
abbrev Dict := List (String × Value)

/-- `d.get(k)`: first binding of `k`, if any. -/
def getKey (d : Dict) (k : String) : Option Value :=
  match d with
  | [] => none
  | (k', v) :: rest => if k' = k then some v else getKey rest k

/-- `d[k] = v` on a CPython dict: replace in place when the key exists,
append otherwise. -/
def setKey (d : Dict) (k : String) (v : Value) : Dict :=
  match d with
  | [] => [(k, v)]
  | (k', v') :: rest => if k' = k then (k, v) :: rest else (k', v') :: setKey rest k v

/-- Python truthiness of a YAML value (`bool(x)`), used by
`yaml.safe_load(raw) or {}` in `nova/config/loader.py`. -/
def Value.pyTruthy : Value → Bool
  | .null => false
  | .bool b => b
  | .int n => n != 0
  | .str s => s ≠ ""
  | .list xs => !xs.isEmpty
  | .dict kvs => !kvs.isEmpty

/-- A list-merge strategy, as in `nova/utils/dicts.py`
(`ListMergeStrategy = Callable[[str, list, list], list]`). -/
abbrev ListStrat := String → List Value → List Value → List Value

mutual
/-- `deep_merge(base, override, list_merge_strategy=strat)` from
`nova/utils/dicts.py`: iterate over `override` items, skipping `None`
values, recursing into mappings, applying the strategy (or wholesale
replacement) to lists, and otherwise assigning. -/
def deep_merge (strat : Option ListStrat) (base : Dict) : Dict → Dict
  | [] => base
  | (k, v) :: rest => deep_merge strat (deepMergeEntry strat base k v) rest

/-- One iteration of the `deep_merge` loop for key `k` with override value
`v` (the `for key, override_value in override.items()` body). -/
def deepMergeEntry (strat : Option ListStrat) (base : Dict) (k : String) : Value → Dict
  | .null => base
  | .dict od =>
      match getKey base k with
      | some (.dict ed) => setKey base k (.dict (deep_merge strat ed od))
      | _ => setKey base k (.dict od)
  | .list ol =>
      match getKey base k with
      | some (.list el) =>
          match strat with
          | some f => setKey base k (.list (f k el ol))
          | none => setKey base k (.list ol)
      | _ => setKey base k (.list ol)
  | v => setKey base k v
end

/-- `_extract_marketplace_name(entry)` from `nova/config/merger.py`:
the `"name"` key of a mapping entry when it is a string. -/
def extractMarketplaceName (entry : Value) : Option String :=
  match entry with
  | .dict d =>
      match getKey d "name" with
      | some (.str s) => some s
      | _ => none
  | _ => none

/-- State of the `_merge_marketplaces` loop: the `merged` list and the
`index_by_name` dictionary. -/
abbrev MMState := List Value × List (String × Nat)

/-- Assignment into the `index_by_name` Python dict. -/
def setIdx (m : List (String × Nat)) (k : String) (i : Nat) : List (String × Nat) :=
  match m with
  | [] => [(k, i)]
  | (k', i') :: rest => if k' = k then (k, i) :: rest else (k', i') :: setIdx rest k i

/-- Lookup in the `index_by_name` Python dict. -/
def getIdx (m : List (String × Nat)) (k : String) : Option Nat :=
  match m with
  | [] => none
  | (k', i') :: rest => if k' = k then some i' else getIdx rest k

/-- The inner `_append(entry)` of `_merge_marketplaces`. -/
def mmAppend (st : MMState) (e : Value) : MMState :=
  let m := st.1
  let ix := st.2
  let m' := m ++ [e]
  match extractMarketplaceName e with
  | some n => (m', setIdx ix n m.length)
  | none => (m', ix)

/-- Body of the override loop of `_merge_marketplaces`: an entry whose name
is already indexed overwrites in place; otherwise it is appended. -/
def mmStep (st : MMState) (e : Value) : MMState :=
  match extractMarketplaceName e with
  | some n =>
      match getIdx st.2 n with
      | some i => (st.1.set i e, st.2)
      | none => mmAppend st e
  | none => mmAppend st e

/-- `_merge_marketplaces(base, override)` from `nova/config/merger.py`. -/
def mergeMarketplaces (base override : List Value) : List Value :=
  (override.foldl mmStep (base.foldl mmAppend ([], []))).1

/-- `_config_list_merge(key, base, override)` from `nova/config/merger.py`:
identity-aware merge for the `marketplaces` key, wholesale replacement for
every other list. -/
def configListMerge : ListStrat := fun k b o =>
  if k = "marketplaces" then mergeMarketplaces b o else o

/-- `_strip_none_dict(data)` from `nova/config/merger.py`: drop `None`
values, recursing into nested mappings (not into lists). -/
def stripNoneDict : Dict → Dict
  | [] => []
  | (k, v) :: rest =>
      match v with
      | .null => stripNoneDict rest
      | .dict d => (k, .dict (stripNoneDict d)) :: stripNoneDict rest
      | v => (k, v) :: stripNoneDict rest

/-- `merge_configs(global_cfg, project_cfg, user_cfg)` from
`nova/config/merger.py`, at the document level: fold `deep_merge` with the
config list strategy over the present scope documents in
global → project → user order, starting from the empty mapping.  (The
Pydantic `model_dump` / `model_validate` round-trips surrounding the dict
merge are identities at this level.) -/
def merge_configs (g p u : Option Dict) : Dict :=
  [g, p, u].foldl
    (fun acc sc =>
      match sc with
      | none => acc
      | some d => deep_merge (some configListMerge) acc (stripNoneDict d))
    []

mutual
/-- `_deep_merge(base, override)` from `nova/config/resolver.py`: the
environment-override merge.  Unlike `nova/utils/dicts.py::deep_merge` it
has no `None` skip and no list strategy: only mapping/mapping pairs
recurse, everything else is assigned. -/
def resolverDeepMerge (base : Dict) : Dict → Dict
  | [] => base
  | (k, v) :: rest => resolverDeepMerge (resolverDeepMergeEntry base k v) rest

/-- One iteration of the `resolver._deep_merge` loop. -/
def resolverDeepMergeEntry (base : Dict) (k : String) : Value → Dict
  | .dict od =>
      match getKey base k with
      | some (.dict ed) => setKey base k (.dict (resolverDeepMerge ed od))
      | _ => setKey base k (.dict od)
  | v => setKey base k v
end

/-! ### Result values (`nova/utils/functools/models/result.py`) -/

/-- The two-variant success/failure container (`Ok`/`Err`). -/
inductive Result (α : Type) (ε : Type) where
  | ok (v : α) : Result α ε
  | err (e : ε) : Result α ε
deriving DecidableEq, Repr

/-! ### Marketplace sources (`nova/marketplace/models.py`, `sources.py`) -/

/-- The tagged union `MarketplaceSource` (GitHub shorthand, git URL, local
directory).  Paths are opaque strings. -/
inductive MarketplaceSource where
  | githubSrc (repo : String)
  | gitSrc (url : String)
  | localSrc (path : String)
deriving DecidableEq, Repr

/-- The marketplace error taxonomy of `nova/marketplace/models.py`: one
constructor per Python error class. -/
inductive MError where
  | notFound (name_or_source : String) (message : String)
  | addError (source : String) (message : String)
  | alreadyExists (name : String) (existing_source : String) (message : String)
  | invalidManifest (source : String) (message : String)
  | sourceParse (source : String) (message : String)
  | fetchError (source : String) (message : String)
  | configLoad (scope : String) (message : String)
  | configSave (scope : String) (message : String)
  | stateError (name : String) (message : String)
deriving DecidableEq, Repr

/-- The error *kind* of a marketplace error: which Python class it is,
disregarding the carried fields. -/
inductive MErrorKind where
  | notFound | addError | alreadyExists | invalidManifest
  | sourceParse | fetchError | configLoad | configSave | stateError
deriving DecidableEq, Repr

/-- Map an error to its kind (its Python class). -/
def MError.kind : MError → MErrorKind
  | .notFound .. => .notFound
  | .addError .. => .addError
  | .alreadyExists .. => .alreadyExists
  | .invalidManifest .. => .invalidManifest
  | .sourceParse .. => .sourceParse
  | .fetchError .. => .fetchError
  | .configLoad .. => .configLoad
  | .configSave .. => .configSave
  | .stateError .. => .stateError

/-- Python `str.strip()` default whitespace (space, tab, LF, CR,
vertical tab, form feed).  (Core `String` functions such as `trim`,
`startsWith` and `splitOn` are avoided throughout because their
`Substring`-based implementations do not reduce in the kernel; the
embedding works on `String.data` instead.) -/
def pyWs (c : Char) : Bool :=
  c = ' ' || c = '\t' || c = '\n' || c = '\r' ||
  c = Char.ofNat 11 || c = Char.ofNat 12

/-- `source.strip()`. -/
def pyStrip (s : String) : String :=
  ⟨((s.data.dropWhile pyWs).reverse.dropWhile pyWs).reverse⟩

/-- List-level prefix test. -/
def listStartsWith : List Char → List Char → Bool
  | _, [] => true
  | [], _ :: _ => false
  | c :: cs, p :: ps => c = p && listStartsWith cs ps

/-- `value.startswith(p)`. -/
def strStartsWith (s p : String) : Bool := listStartsWith s.data p.data

/-- `value.endswith(p)`. -/
def strEndsWith (s p : String) : Bool := listStartsWith s.data.reverse p.data.reverse

/-- ASCII lower-casing of one character (`str.lower` on scheme text). -/
def charLower (c : Char) : Char :=
  if 'A' ≤ c && c ≤ 'Z' then Char.ofNat (c.toNat + 32) else c

/-- Case-insensitive list-level prefix test (ASCII folding). -/
def listStartsWithCI : List Char → List Char → Bool
  | _, [] => true
  | [], _ :: _ => false
  | c :: cs, p :: ps => charLower c = charLower p && listStartsWithCI cs ps

/-- Characters allowed in the owner part of the GitHub shorthand
(`[a-zA-Z0-9_-]`, ASCII). -/
def ghOwnerChar (c : Char) : Bool :=
  c.isAlpha || c.isDigit || c = '_' || c = '-'

/-- Characters allowed in the repo part (`[a-zA-Z0-9_.-]`). -/
def ghRepoChar (c : Char) : Bool :=
  ghOwnerChar c || c = '.'

/-- `re.fullmatch(r"[a-zA-Z0-9_-]+/[a-zA-Z0-9_.-]+", value)` from
`_try_github_source`: a non-empty owner run, one `/`, and a non-empty
repo remainder in its class (neither class contains `/`, so taking the
maximal owner prefix is exactly the regex).  Identical to the Pydantic
`GitHubRepo` pattern, so a matching value always validates. -/
def isGithubShape (s : String) : Bool :=
  match s.data.span ghOwnerChar with
  | (owner, '/' :: repo) => !owner.isEmpty && !repo.isEmpty && repo.all ghRepoChar
  | _ => false

/-- The `urlparse` network location after `scheme://` is non-empty:
there is a host character before the first `/`, `?` or `#`. -/
def netlocNonempty (rest : List Char) : Bool :=
  !(rest.takeWhile (fun c => c ≠ '/' && c ≠ '?' && c ≠ '#')).isEmpty

/-- `parsed.scheme in {"http", "https"} and bool(parsed.netloc)` from
`_try_git_source` (`urlparse` lower-cases the scheme, hence the
case-insensitive prefix test). -/
def isHttpUrlWithHost (s : String) : Bool :=
  (listStartsWithCI s.data "http://".data && netlocNonempty (s.data.drop 7)) ||
  (listStartsWithCI s.data "https://".data && netlocNonempty (s.data.drop 8))

/-- The `is_git` test of `_try_git_source`. -/
def isGitLike (s : String) : Bool :=
  strStartsWith s "git@" || strStartsWith s "git://" || strEndsWith s ".git" ||
  isHttpUrlWithHost s

/-- The Pydantic `GitUrl` field pattern `^(https?://|git@|git://)`
(case-sensitive). -/
def gitUrlPatternOk (s : String) : Bool :=
  strStartsWith s "https://" || strStartsWith s "http://" ||
  strStartsWith s "git@" || strStartsWith s "git://"

/-- Filesystem abstraction: which (resolved) paths exist as directories. -/
structure Fs where
  isDir : String → Bool

/-- Path resolution of `_try_local_source`: absolute paths stand,
relative ones are joined to the working directory.  (`~`-expansion and
`..`-normalisation are not modelled; paths are opaque strings.) -/
def resolvePath (wd s : String) : String :=
  if strStartsWith s "/" then s else wd ++ "/" ++ s

/-- `parse_source(source, working_dir=wd)` from
`nova/marketplace/sources.py`: empty check, then the github / git / local
branches in order, each branch ending in the Pydantic validation of the
corresponding source model. -/
def parse_source (fs : Fs) (wd : String) (source : String) :
    Result MarketplaceSource MError :=
  let normalized := pyStrip source
  if normalized = "" then
    .err (.sourceParse source "Marketplace source cannot be empty.")
  else if isGithubShape normalized then
    .ok (.githubSrc normalized)
  else if isGitLike normalized then
    if gitUrlPatternOk normalized then .ok (.gitSrc normalized)
    else .err (.sourceParse source "Invalid git repository URL")
  else
    let path := resolvePath wd normalized
    if fs.isDir path then .ok (.localSrc path)
    else .err (.sourceParse source "Invalid local marketplace path")

/-- `str(source)` on the Pydantic source models, as interpolated into
error messages (the exact rendering is immaterial to the claims). -/
def displaySource : MarketplaceSource → String
  | .githubSrc r => "type='github' repo='" ++ r ++ "'"
  | .gitSrc u => "type='git' url='" ++ u ++ "'"
  | .localSrc p => "type='local' path='" ++ p ++ "'"

/-! ### Marketplace manifest and its validator
(`nova/marketplace/models.py`, `nova/marketplace/validator.py`) -/

/-- `Contact` (owner / author): non-empty name, optional email. -/
structure Contact where
  name : String
  email : Option String
deriving DecidableEq, Repr

/-- `BundleEntry` of a manifest.  The optional `category`, `version` and
`author` fields are dropped by the embedding (`extra="ignore"` models;
no claim inspects them). -/
structure BundleEntry where
  name : String
  description : String
  source : String
deriving DecidableEq, Repr

/-- `MarketplaceManifest` (from `marketplace.json`). -/
structure MarketplaceManifest where
  name : String
  version : String
  description : String
  owner : Contact
  bundles : List BundleEntry
deriving DecidableEq, Repr

/-- A required `StrictStr` field with `min_length=1`. -/
def asNonEmptyStr : Option Value → Option String
  | some (.str s) => if s = "" then none else some s
  | _ => none

/-- A required `str` field (any string). -/
def asStr : Option Value → Option String
  | some (.str s) => some s
  | _ => none

/-- `Contact.model_validate`: mapping with a non-empty `name`; `email`
kept when it is a string (address-format validation not modelled). -/
def parseContact : Value → Option Contact
  | .dict d =>
      (asNonEmptyStr (getKey d "name")).map fun n => ⟨n, asStr (getKey d "email")⟩
  | _ => none

/-- `BundleEntry.model_validate`: mapping with non-empty `name`,
`description` and `source`. -/
def parseBundle : Value → Option BundleEntry
  | .dict d =>
      match asNonEmptyStr (getKey d "name"), asNonEmptyStr (getKey d "description"),
          asNonEmptyStr (getKey d "source") with
      | some n, some de, some s => some ⟨n, de, s⟩
      | _, _, _ => none
  | _ => none

/-- Parse every element or fail. -/
def parseAll {α : Type} (f : Value → Option α) : List Value → Option (List α)
  | [] => some []
  | v :: rest =>
      match f v, parseAll f rest with
      | some a, some as_ => some (a :: as_)
      | _, _ => none

/-- `MarketplaceManifest.model_validate`: mapping with non-empty `name`
and `version`, a string `description`, a valid `owner` contact and a list
of valid bundles. -/
def parseManifest : Value → Option MarketplaceManifest
  | .dict d =>
      match asNonEmptyStr (getKey d "name"), asNonEmptyStr (getKey d "version"),
          asStr (getKey d "description"),
          (getKey d "owner").bind parseContact with
      | some n, some ver, some de, some ow =>
          match getKey d "bundles" with
          | some (.list bs) => (parseAll parseBundle bs).map fun pb => ⟨n, ver, de, ow, pb⟩
          | _ => none
      | _, _, _, _ => none
  | _ => none

/-- State of `<marketplace_dir>/marketplace.json` as the validator
observes it: absent, unreadable, malformed JSON, or a parsed JSON value. -/
inductive ManifestFile where
  | absent
  | unreadable (msg : String)
  | badJson (msg : String)
  | json (v : Value)
deriving Repr

/-- `load_and_validate_marketplace(marketplace_dir)` from
`nova/marketplace/validator.py`.  All failure branches build a
`MarketplaceInvalidManifestError` whose `source` is the directory; the
schema-violation message (a join of the Pydantic error list) is abstracted
to a fixed text. -/
def load_and_validate_marketplace (dir : String) (file : ManifestFile) :
    Result MarketplaceManifest MError :=
  match file with
  | .absent => .err (.invalidManifest dir "marketplace.json not found in repository")
  | .badJson e => .err (.invalidManifest dir ("Invalid JSON in marketplace.json: " ++ e))
  | .unreadable e => .err (.invalidManifest dir ("Failed to read marketplace.json: " ++ e))
  | .json v =>
      match parseManifest v with
      | some m => .ok m
      | none => .err (.invalidManifest dir "Invalid marketplace.json: schema violation")

/-! ### Config scope models and the two scoped loaders
(`nova/config/models.py`, `nova/config/loader.py`,
`nova/config/file/store.py`) -/

/-- `ConfigScope`. -/
inductive ConfigScope where
  | global | project | user | effective
deriving DecidableEq, Repr

/-- The `ConfigError` taxonomy of `nova/config/models.py` (the carried
`path` is immaterial to the claims and omitted). -/
inductive ConfigError where
  | notFound (scope : ConfigScope) (message : String)
  | ioError (scope : ConfigScope) (message : String)
  | yamlError (scope : ConfigScope) (line column : Option Nat) (message : String)
  | validation (scope : ConfigScope) (field : Option String) (message : String)
deriving DecidableEq, Repr

/-- `MarketplaceConfig` (`nova/marketplace/config.py`): a config entry. -/
structure MarketplaceConfig where
  name : String
  source : MarketplaceSource
deriving DecidableEq, Repr

/-- Validation of a `source` mapping against the
`GitHubMarketplaceSource | GitMarketplaceSource | LocalMarketplaceSource`
union, discriminated by the `type` literal; `repo`/`url` must match their
field patterns, `path` must be an existing directory (`DirectoryPath`). -/
def parseSourceValue (fs : Fs) : Value → Option MarketplaceSource
  | .dict d =>
      match getKey d "type" with
      | some (.str "github") =>
          match asNonEmptyStr (getKey d "repo") with
          | some r => if isGithubShape r then some (.githubSrc r) else none
          | none => none
      | some (.str "git") =>
          match asNonEmptyStr (getKey d "url") with
          | some u => if gitUrlPatternOk u then some (.gitSrc u) else none
          | none => none
      | some (.str "local") =>
          match asNonEmptyStr (getKey d "path") with
          | some p => if fs.isDir p then some (.localSrc p) else none
          | none => none
      | _ => none
  | _ => none

/-- `MarketplaceConfig.model_validate`: non-empty `name` plus a valid
`source`. -/
def parseConfigEntry (fs : Fs) : Value → Option MarketplaceConfig
  | .dict d =>
      match asNonEmptyStr (getKey d "name"), (getKey d "source").bind (parseSourceValue fs) with
      | some n, some s => some ⟨n, s⟩
      | _, _ => none
  | _ => none

/-- The parsed scope model.  Extra document keys are allowed
(`extra="allow"`) and retained by Pydantic, but no embedded operation
reads them, so only the `marketplaces` field is kept. -/
structure ScopeConfig where
  marketplaces : List MarketplaceConfig
deriving DecidableEq, Repr

/-- `model_validate(data)` for `GlobalConfig` / `ProjectConfig` /
`UserConfig`: `logging` is rejected outside GLOBAL (the
`_validate_no_logging` before-validators) and must be a mapping in GLOBAL
(the `LoggingConfig` sub-model; its field-level schema is not modelled);
`marketplaces`, when present, must be a list of valid entries. -/
def validateScopeDoc (fs : Fs) (scope : ConfigScope) (d : Dict) :
    Result ScopeConfig ConfigError :=
  if scope ≠ ConfigScope.global ∧ (getKey d "logging").isSome then
    .err (.validation scope (some "logging")
      "Logging configuration can only be set in global config")
  else
    match getKey d "logging" with
    | some (.dict _) | none => validateScopeMarketplaces fs scope d
    | some _ =>
        if scope = ConfigScope.global then
          .err (.validation scope (some "logging") "Input should be a valid dictionary")
        else validateScopeMarketplaces fs scope d
where
  /-- The `marketplaces` field of the scope models. -/
  validateScopeMarketplaces (fs : Fs) (scope : ConfigScope) (d : Dict) :
      Result ScopeConfig ConfigError :=
    match getKey d "marketplaces" with
    | none => .ok ⟨[]⟩
    | some (.list xs) =>
        match parseAll (parseConfigEntry fs) xs with
        | some entries => .ok ⟨entries⟩
        | none => .err (.validation scope (some "marketplaces") "invalid marketplace entry")
    | some _ => .err (.validation scope (some "marketplaces") "Input should be a valid list")

/-- State of a scope's YAML file as a loader observes it. -/
inductive ConfigFile where
  | missing
  | unreadable (msg : String)
  | yamlBad (line column : Option Nat) (msg : String)
  | yamlOk (v : Option Value)
deriving Repr

/-- `FileConfigStore._load_scope_config` from `nova/config/file/store.py`:
`data = yaml.safe_load(raw_text)`, then `if data is None: data = {}`, the
mapping-root check, and `model_validate`. -/
def store_load_scope_config (fs : Fs) (scope : ConfigScope) (file : ConfigFile) :
    Result ScopeConfig ConfigError :=
  match file with
  | .missing => .err (.notFound scope ("Configuration file not found for scope."))
  | .unreadable m => .err (.ioError scope m)
  | .yamlBad l c m => .err (.yamlError scope l c m)
  | .yamlOk v =>
      let data := match v with
        | none => Value.dict []
        | some w => w
      match data with
      | .dict d => validateScopeDoc fs scope d
      | _ => .err (.validation scope none
          "Configuration root must be a mapping of keys to values.")

/-- `_load_scope_config` from `nova/config/loader.py`: identical to the
store variant except for line 68, `data = yaml.safe_load(raw_text) or {}`,
which replaces every Python-falsy root (`None`, `False`, `0`, `""`, `[]`,
`{}`) by the empty mapping before the (now dead) `if data is None` check
and the mapping-root check. -/
def loader_load_scope_config (fs : Fs) (scope : ConfigScope) (file : ConfigFile) :
    Result ScopeConfig ConfigError :=
  match file with
  | .missing => .err (.notFound scope ("Configuration file not found for scope."))
  | .unreadable m => .err (.ioError scope m)
  | .yamlBad l c m => .err (.yamlError scope l c m)
  | .yamlOk v =>
      let data := match v with
        | none => Value.dict []
        | some w => if w.pyTruthy then w else Value.dict []
      match data with
      | .dict d => validateScopeDoc fs scope d
      | _ => .err (.validation scope none
          "Configuration root must be a mapping of keys to values.")

/-! ### Marketplace lifecycle (`nova/marketplace/api.py`,
`nova/config/file/store.py`) -/

/-- `MarketplaceScope`: config entries are written to GLOBAL or PROJECT. -/
inductive MScope where
  | global | project
deriving DecidableEq, Repr

/-- `MarketplaceState`: the per-name install record kept in the data
store. -/
structure MarketplaceState where
  name : String
  source : MarketplaceSource
  install_location : String
  last_updated : String
deriving DecidableEq, Repr

/-- `MarketplaceInfo`: the add/remove/list/get result record. -/
structure MarketplaceInfo where
  name : String
  description : String
  source : MarketplaceSource
  bundle_count : Nat
deriving DecidableEq, Repr

/-- The world the marketplace lifecycle acts on: the three scope files'
marketplace lists (`none` = file absent), the data-store map keyed by
name, the set of existing permanent install directories, and the parsed
`marketplace.json` content found under each directory (worlds only model
manifests that parse; an unreadable manifest raises an uncaught exception
in the source and is outside the embedding).  Config loading and
data-store I/O are in-memory and total here, so their failure branches in
the source are not exercised. -/
structure MWorld where
  globalMps : Option (List MarketplaceConfig)
  projectMps : Option (List MarketplaceConfig)
  userMps : Option (List MarketplaceConfig)
  states : List (String × MarketplaceState)
  dirs : List String
  manifests : List (String × Value)
deriving Repr

/-- Flat-map lookup (`datastore.load` / `dict.get`). -/
def lookupAssoc {α : Type} (m : List (String × α)) (k : String) : Option α :=
  match m with
  | [] => none
  | (k', v) :: rest => if k' = k then some v else lookupAssoc rest k

/-- Flat-map update-or-insert (`data[key] = value`). -/
def setAssoc {α : Type} (m : List (String × α)) (k : String) (v : α) :
    List (String × α) :=
  match m with
  | [] => [(k, v)]
  | (k', v') :: rest => if k' = k then (k, v) :: rest else (k', v') :: setAssoc rest k v

/-- Flat-map deletion (`del data[key]`). -/
def delAssoc {α : Type} (m : List (String × α)) (k : String) : List (String × α) :=
  match m with
  | [] => []
  | (k', v') :: rest => if k' = k then delAssoc rest k else (k', v') :: delAssoc rest k

/-- `_merge_marketplaces` restricted to validated config entries: the
record-level image of the `index_by_name` merge (every entry has a
name). -/
def mergeMarketplaceConfigs (base override : List MarketplaceConfig) :
    List MarketplaceConfig :=
  override.foldl
    (fun acc e =>
      match acc.findIdx? (fun c => c.name = e.name) with
      | some i => acc.set i e
      | none => acc ++ [e])
    base

/-- The effective (merged) marketplace list that
`FileConfigStore.get_marketplace_config` returns: scope lists merged by
name in global → project → user order. -/
def effectiveConfigs (w : MWorld) : List MarketplaceConfig :=
  [w.globalMps, w.projectMps, w.userMps].foldl
    (fun acc sc =>
      match sc with
      | none => acc
      | some l => mergeMarketplaceConfigs acc l)
    []

/-- `FileConfigStore.has_marketplace(name, source)`: any effective entry
matching the name or the source by value. -/
def has_marketplace (w : MWorld) (name : String) (source : MarketplaceSource) : Bool :=
  (effectiveConfigs w).any fun m => m.name = name || m.source = source

/-- Read a scope's marketplace list. -/
def scopeMps (w : MWorld) : MScope → Option (List MarketplaceConfig)
  | .global => w.globalMps
  | .project => w.projectMps

/-- Write a scope's marketplace list. -/
def setScopeMps (w : MWorld) : MScope → List MarketplaceConfig → MWorld
  | .global, l => { w with globalMps := some l }
  | .project, l => { w with projectMps := some l }

/-- `FileConfigStore.add_marketplace(config, scope)` at the record level:
load the scope (or start empty), append, write back. -/
def addMarketplaceCfg (w : MWorld) (config : MarketplaceConfig) (scope : MScope) :
    MWorld :=
  match scopeMps w scope with
  | none => setScopeMps w scope [config]
  | some l => setScopeMps w scope (l ++ [config])

/-- `next((i for i, m in enumerate(config.marketplaces) if m.name == name), None)`:
index of the first entry carrying `name`. -/
def findNameIdx (l : List MarketplaceConfig) (name : String) : Option Nat :=
  match l with
  | [] => none
  | c :: rest => if c.name = name then some 0 else (findNameIdx rest name).map (· + 1)

/-- `FileConfigStore._remove_from_scope(name, scope)`: NotFound when the
scope file is absent or its list empty or no entry carries the name;
otherwise drop the first match and return it. -/
def removeFromScope (w : MWorld) (name : String) (scope : MScope) :
    Result (MWorld × MarketplaceConfig) MError :=
  match scopeMps w scope with
  | none => .err (.notFound name ("Marketplace '" ++ name ++ "' not found in scope"))
  | some l =>
      if l.isEmpty then
        .err (.notFound name ("Marketplace '" ++ name ++ "' not found in scope"))
      else
        match findNameIdx l name with
        | none => .err (.notFound name ("Marketplace '" ++ name ++ "' not found in scope"))
        | some i =>
            match l[i]? with
            | some removed => .ok (setScopeMps w scope (l.eraseIdx i), removed)
            | none => .err (.notFound name ("Marketplace '" ++ name ++ "' not found in scope"))

/-- `FileConfigStore.remove_marketplace(name, scope)`: explicit scope, or
PROJECT then GLOBAL, first success wins. -/
def removeMarketplaceCfg (w : MWorld) (name : String) (scope : Option MScope) :
    Result (MWorld × MarketplaceConfig) MError :=
  match scope with
  | some sc => removeFromScope w name sc
  | none =>
      match removeFromScope w name .project with
      | .ok r => .ok r
      | .err _ =>
          match removeFromScope w name .global with
          | .ok r => .ok r
          | .err _ =>
              .err (.notFound name ("Marketplace '" ++ name ++ "' not found in any scope"))

/-- `manifest_data.get("description", "")` after `json.loads`. -/
def manifestDescription (v : Value) : String :=
  match v with
  | .dict d =>
      match getKey d "description" with
      | some (.str s) => s
      | _ => ""
  | _ => ""

/-- `len(manifest_data.get("bundles", []))`. -/
def manifestBundleCount (v : Value) : Nat :=
  match v with
  | .dict d =>
      match getKey d "bundles" with
      | some (.list l) => l.length
      | _ => 0
  | _ => 0

/-- `Marketplace._attach_marketplace_info(state)`: read
`<install_location>/marketplace.json` when it exists, else default to an
empty description and zero bundles.  Never an error. -/
def attachMarketplaceInfo (w : MWorld) (st : MarketplaceState) : MarketplaceInfo :=
  match lookupAssoc w.manifests st.install_location with
  | some v => ⟨st.name, manifestDescription v, st.source, manifestBundleCount v⟩
  | none => ⟨st.name, "", st.source, 0⟩

/-- `Marketplace.get(name)`: load the state record (missing ⇒ NotFound),
then attach the manifest-derived info. -/
def marketplaceGet (w : MWorld) (name : String) : Result MarketplaceInfo MError :=
  match lookupAssoc w.states name with
  | none => .err (.notFound name ("Marketplace '" ++ name ++ "' state not found"))
  | some st => .ok (attachMarketplaceInfo w st)

/-- `Marketplace.list()` /
`_build_marketplace_infos_from_configs`: for each effective config entry,
skip it when its state record is missing, else attach info (tolerating a
missing manifest). -/
def marketplaceList (w : MWorld) : Result (List MarketplaceInfo) MError :=
  .ok ((effectiveConfigs w).filterMap fun c =>
    (lookupAssoc w.states c.name).map (attachMarketplaceInfo w))

/-- `Marketplace._resolve_marketplace_name(name_or_source)`: a
non-parsing input is used literally as a name; a parsing input must match
some effective entry's source by value, else NotFound. -/
def resolveMarketplaceName (w : MWorld) (fs : Fs) (wd : String)
    (name_or_source : String) : Result String MError :=
  match parse_source fs wd name_or_source with
  | .err _ => .ok name_or_source
  | .ok source =>
      match (effectiveConfigs w).find? (fun c => c.source = source) with
      | some c => .ok c.name
      | none =>
          .err (.notFound name_or_source
            ("Marketplace with source '" ++ name_or_source ++ "' not found"))

/-- `Marketplace.remove(name_or_source, scope)`: resolve the name, remove
the config entry, load state (absence tolerated), delete the state record
if present, delete the install directory if present and non-local, and
return the info (built from the config entry when no state existed). -/
def marketplaceRemove (w : MWorld) (fs : Fs) (wd : String)
    (name_or_source : String) (scope : Option MScope) :
    MWorld × Result MarketplaceInfo MError :=
  match resolveMarketplaceName w fs wd name_or_source with
  | .err e => (w, .err e)
  | .ok name =>
      match removeMarketplaceCfg w name scope with
      | .err e => (w, .err e)
      | .ok (w1, removed) =>
          match lookupAssoc w1.states name with
          | none =>
              -- DataStoreKeyNotFoundError: proceed, state=None, cleanup no-ops
              (w1, .ok ⟨removed.name, "", removed.source, 0⟩)
          | some st =>
              let info := attachMarketplaceInfo w1 st
              let w2 := { w1 with states := delAssoc w1.states name }
              let w3 :=
                match st.source with
                | .localSrc _ => w2
                | _ =>
                    if w2.dirs.contains st.install_location then
                      { w2 with dirs := w2.dirs.filter (· ≠ st.install_location) }
                    else w2
              (w3, .ok info)

/-- `Marketplace.add(source, scope)`: the railway pipeline
parse → fetch → validate → duplicate-check → move → save-state →
save-config → build-info.  The external fetch is abstracted by
`fetchRes` (remote sources only) and the fetched tree's manifest file by
`mf`; `fetchedDir` is the temp (or local) root used in error messages;
`now` is the `last_updated` timestamp. -/
def marketplaceAdd (w : MWorld) (fs : Fs) (wd : String) (raw : String)
    (scope : MScope) (fetchRes : Result Unit MError) (fetchedDir : String)
    (mf : ManifestFile) (now : String) :
    MWorld × Result MarketplaceInfo MError :=
  match parse_source fs wd raw with
  | .err e => (w, .err e)
  | .ok src =>
      let fetched : Result Unit MError :=
        match src with
        | .localSrc _ => .ok ()
        | _ => fetchRes
      match fetched with
      | .err e => (w, .err e)
      | .ok _ =>
          match load_and_validate_marketplace fetchedDir mf with
          | .err e => (w, .err e)
          | .ok manifest =>
              if has_marketplace w manifest.name src then
                (w, .err (.alreadyExists manifest.name (displaySource src)
                  ("Marketplace with name '" ++ manifest.name ++ "' or source '" ++
                    displaySource src ++ "' already exists")))
              else
                -- _move_to_final_location
                let finalLoc :=
                  match src with
                  | .localSrc p => p
                  | _ => "data/marketplaces/" ++ manifest.name
                let w1 :=
                  match src with
                  | .localSrc _ => w
                  | _ =>
                      { w with
                        dirs := (w.dirs.filter (· ≠ finalLoc)) ++ [finalLoc],
                        manifests :=
                          match mf with
                          | .json v => setAssoc w.manifests finalLoc v
                          | _ => w.manifests }
                -- _save_marketplace_state
                let st : MarketplaceState := ⟨manifest.name, src, finalLoc, now⟩
                let w2 := { w1 with states := setAssoc w1.states manifest.name st }
                -- _save_to_config
                let w3 := addMarketplaceCfg w2 ⟨manifest.name, src⟩ scope
                -- _build_marketplace_info (re-reads marketplace.json at finalLoc)
                let info : MarketplaceInfo :=
                  match mf with
                  | .json v => ⟨manifest.name, manifestDescription v, src, manifestBundleCount v⟩
                  | _ => ⟨manifest.name, "", src, 0⟩
                (w3, .ok info)

/-- `model_dump(mode="json")` of a source model. -/
def dumpSource : MarketplaceSource → Value
  | .githubSrc r => .dict [("type", .str "github"), ("repo", .str r)]
  | .gitSrc u => .dict [("type", .str "git"), ("url", .str u)]
  | .localSrc p => .dict [("type", .str "local"), ("path", .str p)]

/-- `model_dump(mode="json")` of a `MarketplaceConfig` entry. -/
def dumpConfigEntry (c : MarketplaceConfig) : Value :=
  .dict [("name", .str c.name), ("source", dumpSource c.source)]

/-- `ConfigScope.GLOBAL if scope == MarketplaceScope.GLOBAL else
ConfigScope.PROJECT`. -/
def toConfigScope : MScope → ConfigScope
  | .global => .global
  | .project => .project

/-- `scope.value`. -/
def scopeValue : MScope → String
  | .global => "global"
  | .project => "project"

/-- `FileConfigStore.add_marketplace(config, scope)` at the document
level: `load_scope` the target document (absent file ⇒ start empty; a
load failure becomes `MarketplaceConfigLoadError`), then write
`data = {"marketplaces": [...existing dumps..., new dump]}` — the
entire document that `_write_scope_data` serialises. -/
def fileAddMarketplace (fs : Fs) (scope : MScope) (doc : Option Dict)
    (entry : MarketplaceConfig) : Result Dict MError :=
  match doc with
  | none => .ok [("marketplaces", .list [dumpConfigEntry entry])]
  | some d =>
      match validateScopeDoc fs (toConfigScope scope) d with
      | .err _ => .err (.configLoad (scopeValue scope) "Failed to load existing config")
      | .ok m =>
          .ok [("marketplaces",
            .list (m.marketplaces.map dumpConfigEntry ++ [dumpConfigEntry entry]))]

/-! ### Spec-side rendition of the identity-aware marketplace merge -/

/-- Modelled from the spec: "keep an ordered collection keyed by name; an
incoming entry matching an existing name overwrites it IN PLACE (same
position), a non-matching name appends".  This is the refinement target
the implementation's `index_by_name` bookkeeping is compared against; it
is deliberately written from the spec's words, not from the source. -/
def specMergeEntry (merged : List Value) (e : Value) : List Value :=
  match extractMarketplaceName e with
  | some n =>
      if merged.any (fun x => extractMarketplaceName x = some n) then
        merged.map (fun x => if extractMarketplaceName x = some n then e else x)
      else merged ++ [e]
  | none => merged ++ [e]

/-- Modelled from the spec: "process scopes in precedence order
(global→project→user)", feeding every entry of every scope, in order,
through `specMergeEntry`. -/
def specMergeScopes (scopes : List (List Value)) : List Value :=
  scopes.foldl (fun acc l => l.foldl specMergeEntry acc) []

/-- A marketplace list in which every entry is named and the names are
pairwise distinct (the claim's "marketplace lists each have
pairwise-distinct names"). -/
def GoodList (l : List Value) : Prop :=
  (∀ e ∈ l, (extractMarketplaceName e).isSome) ∧
  (l.map extractMarketplaceName).Nodup

/-- The `index_by_name` dictionary of a merge state indexes exactly the
named entries of the merged list. -/
def IxOK (st : MMState) : Prop :=
  ∀ n : String,
    (∀ i, getIdx st.2 n = some i →
      ∃ e, st.1[i]? = some e ∧ extractMarketplaceName e = some n) ∧
    (getIdx st.2 n = none → ∀ e ∈ st.1, extractMarketplaceName e ≠ some n)

/-- Invariant of the `_merge_marketplaces` loop state. -/
def GoodState (st : MMState) : Prop := GoodList st.1 ∧ IxOK st

/-- An empty filesystem: no path is a directory. -/
def fs0 : Fs := ⟨fun _ => false⟩

/-!
## Theorems

Shared lemmas first, then one theorem per claim (with its witness or
counterexample where required).
-/

theorem getKey_setKey_self (d : Dict) (k : String) (v : Value) :
    getKey (setKey d k v) k = some v := by
  induction d with
  | nil => simp [setKey, getKey]
  | cons p rest ih =>
      obtain ⟨k', v'⟩ := p
      by_cases h : k' = k
      · simp [setKey, getKey, h]
      · simp [setKey, getKey, h, ih]

theorem getKey_setKey_ne (d : Dict) (k' k : String) (v : Value) (h : k' ≠ k) :
    getKey (setKey d k' v) k = getKey d k := by
  have h' : k ≠ k' := Ne.symm h
  induction d with
  | nil => simp [setKey, getKey, h]
  | cons p rest ih =>
      obtain ⟨k'', v''⟩ := p
      by_cases h2 : k'' = k'
      · subst h2
        simp [setKey, getKey, h, h']
      · by_cases h3 : k'' = k <;> simp [setKey, getKey, h2, h3, h', ih]

/-- `deepMergeEntry` for a key other than `k` leaves `k`'s binding
alone. -/
theorem deepMergeEntry_getKey_ne (strat : Option ListStrat) (b : Dict)
    (k' : String) (v : Value) (k : String) (h : k' ≠ k) :
    getKey (deepMergeEntry strat b k' v) k = getKey b k := by
  cases v with
  | null => rfl
  | dict od =>
      simp only [deepMergeEntry]
      cases hb : getKey b k' with
      | none => exact getKey_setKey_ne b k' k _ h
      | some w => cases w <;> exact getKey_setKey_ne b k' k _ h
  | list ol =>
      simp only [deepMergeEntry]
      cases hb : getKey b k' with
      | none => exact getKey_setKey_ne b k' k _ h
      | some w =>
          cases w <;> try exact getKey_setKey_ne b k' k _ h
          cases strat <;> exact getKey_setKey_ne b k' k _ h
  | bool _ => exact getKey_setKey_ne b k' k _ h
  | int _ => exact getKey_setKey_ne b k' k _ h
  | str _ => exact getKey_setKey_ne b k' k _ h

/-- `deep_merge` over an override without key `k` leaves `k`'s binding
alone. -/
theorem deep_merge_getKey_not_mem (strat : Option ListStrat) (b o : Dict)
    (k : String) (h : ∀ p ∈ o, p.1 ≠ k) :
    getKey (deep_merge strat b o) k = getKey b k := by
  induction o generalizing b with
  | nil => rfl
  | cons p rest ih =>
      obtain ⟨k', v⟩ := p
      have hk : k' ≠ k := h (k', v) (List.mem_cons_self _ _)
      have := ih (deepMergeEntry strat b k' v) (fun q hq => h q (List.mem_cons_of_mem _ hq))
      simpa [deep_merge, deepMergeEntry_getKey_ne strat b k' v k hk] using this

/-- `resolverDeepMergeEntry` for a key other than `k` leaves `k`'s binding
alone. -/
theorem resolverDeepMergeEntry_getKey_ne (b : Dict) (k' : String) (v : Value)
    (k : String) (h : k' ≠ k) :
    getKey (resolverDeepMergeEntry b k' v) k = getKey b k := by
  cases v with
  | dict od =>
      simp only [resolverDeepMergeEntry]
      cases hb : getKey b k' with
      | none => exact getKey_setKey_ne b k' k _ h
      | some w => cases w <;> exact getKey_setKey_ne b k' k _ h
  | null => exact getKey_setKey_ne b k' k _ h
  | bool _ => exact getKey_setKey_ne b k' k _ h
  | int _ => exact getKey_setKey_ne b k' k _ h
  | str _ => exact getKey_setKey_ne b k' k _ h
  | list _ => exact getKey_setKey_ne b k' k _ h

/-- `resolverDeepMerge` over an override without key `k` leaves `k`'s
binding alone. -/
theorem resolverDeepMerge_getKey_not_mem (b o : Dict) (k : String)
    (h : ∀ p ∈ o, p.1 ≠ k) :
    getKey (resolverDeepMerge b o) k = getKey b k := by
  induction o generalizing b with
  | nil => rfl
  | cons p rest ih =>
      obtain ⟨k', v⟩ := p
      have hk : k' ≠ k := h (k', v) (List.mem_cons_self _ _)
      have := ih (resolverDeepMergeEntry b k' v) (fun q hq => h q (List.mem_cons_of_mem _ hq))
      simpa [resolverDeepMerge, resolverDeepMergeEntry_getKey_ne b k' v k hk] using this

/-- C5: the validator maps its three failure cases to the error
constructors shown; all carry the directory as `source`. -/
theorem validator_failure_shapes (dir msg : String) (v : Value)
    (hv : parseManifest v = none) :
    load_and_validate_marketplace dir .absent
      = .err (.invalidManifest dir "marketplace.json not found in repository") ∧
    load_and_validate_marketplace dir (.badJson msg)
      = .err (.invalidManifest dir ("Invalid JSON in marketplace.json: " ++ msg)) ∧
    load_and_validate_marketplace dir (.json v)
      = .err (.invalidManifest dir "Invalid marketplace.json: schema violation") := by
  refine ⟨rfl, rfl, ?_⟩
  simp [load_and_validate_marketplace, hv]

/-- C5 witness: the three failure shapes at concrete inputs. -/
theorem validator_failure_shapes_witness :
    parseManifest (Value.dict []) = none ∧
    load_and_validate_marketplace "/mp" .absent
      = .err (.invalidManifest "/mp" "marketplace.json not found in repository") ∧
    load_and_validate_marketplace "/mp" (.badJson "Expecting value")
      = .err (.invalidManifest "/mp" ("Invalid JSON in marketplace.json: " ++ "Expecting value")) ∧
    load_and_validate_marketplace "/mp" (.json (Value.dict []))
      = .err (.invalidManifest "/mp" "Invalid marketplace.json: schema violation") := by
  have h := validator_failure_shapes "/mp" "Expecting value" (Value.dict []) rfl
  exact ⟨rfl, h.1, h.2.1, h.2.2⟩

/-- C5 counterexample: at the three concrete failure inputs (manifest
missing, malformed JSON, schema violation) the returned errors all have
the same kind, `MarketplaceInvalidManifestError` — refuting "each case
yields a different error kind". -/
theorem validator_error_kinds_coincide :
    load_and_validate_marketplace "/mp" .absent
      = .err (.invalidManifest "/mp" "marketplace.json not found in repository") ∧
    load_and_validate_marketplace "/mp" (.badJson "Expecting value")
      = .err (.invalidManifest "/mp" "Invalid JSON in marketplace.json: Expecting value") ∧
    load_and_validate_marketplace "/mp" (.json (Value.dict []))
      = .err (.invalidManifest "/mp" "Invalid marketplace.json: schema violation") ∧
    (MError.invalidManifest "/mp" "marketplace.json not found in repository").kind
      = (MError.invalidManifest "/mp" "Invalid JSON in marketplace.json: Expecting value").kind ∧
    (MError.invalidManifest "/mp" "Invalid JSON in marketplace.json: Expecting value").kind
      = (MError.invalidManifest "/mp" "Invalid marketplace.json: schema violation").kind ∧
    (MError.invalidManifest "/mp" "marketplace.json not found in repository").kind
      = MErrorKind.invalidManifest :=
  ⟨rfl, rfl, rfl, rfl, rfl, rfl⟩

/-- Scalars in the sense of the merge rules (not `None`, not a mapping,
not a list). -/
def Value.isScalar : Value → Bool
  | .bool _ => true
  | .int _ => true
  | .str _ => true
  | _ => false

theorem deepMergeEntry_scalar (strat : Option ListStrat) (b : Dict) (k : String)
    (v : Value) (hv : v.isScalar = true) :
    deepMergeEntry strat b k v = setKey b k v := by
  cases v <;> first
    | rfl
    | simp [Value.isScalar] at hv

theorem resolverDeepMergeEntry_nondict (b : Dict) (k : String) (v : Value)
    (hv : ∀ od, v ≠ Value.dict od) :
    resolverDeepMergeEntry b k v = setKey b k v := by
  cases v <;> first
    | rfl
    | exact absurd rfl (hv _)

/-- In the scope merge a `None` override never clobbers: the binding of
`k` is untouched when the override maps `k` to `None`. -/
theorem deep_merge_none_preserves (strat : Option ListStrat) (b o : Dict)
    (k : String) (hnodup : (o.map Prod.fst).Nodup)
    (h : getKey o k = some .null) :
    getKey (deep_merge strat b o) k = getKey b k := by
  induction o generalizing b with
  | nil => simp [getKey] at h
  | cons p rest ih =>
      obtain ⟨k', v⟩ := p
      by_cases hk : k' = k
      · subst hk
        have hv : v = Value.null := by
          simp [getKey] at h; exact h
        subst hv
        have hnot : ∀ q ∈ rest, q.1 ≠ k' := by
          intro q hq
          have : k' ∉ rest.map Prod.fst := by
            simpa using (List.nodup_cons.mp hnodup).1
          intro hq1
          exact this (hq1 ▸ List.mem_map_of_mem Prod.fst hq)
        show getKey (deep_merge strat (deepMergeEntry strat b k' Value.null) rest) k' = getKey b k'
        simpa [deepMergeEntry] using deep_merge_getKey_not_mem strat b rest k' hnot
      · have hrest : getKey rest k = some Value.null := by
          simpa [getKey, hk] using h
        have := ih (b := deepMergeEntry strat b k' v)
          ((List.nodup_cons.mp hnodup).2) hrest
        show getKey (deep_merge strat (deepMergeEntry strat b k' v) rest) k = getKey b k
        rw [this, deepMergeEntry_getKey_ne strat b k' v k hk]

/-- In the scope merge a scalar override always clobbers, falsy or not. -/
theorem deep_merge_scalar_replaces (strat : Option ListStrat) (b o : Dict)
    (k : String) (v : Value) (hnodup : (o.map Prod.fst).Nodup)
    (h : getKey o k = some v) (hv : v.isScalar = true) :
    getKey (deep_merge strat b o) k = some v := by
  induction o generalizing b with
  | nil => simp [getKey] at h
  | cons p rest ih =>
      obtain ⟨k', v'⟩ := p
      by_cases hk : k' = k
      · subst hk
        have hv' : v' = v := by
          simp [getKey] at h; exact h
        subst hv'
        have hnot : ∀ q ∈ rest, q.1 ≠ k' := by
          intro q hq
          have : k' ∉ rest.map Prod.fst := by
            simpa using (List.nodup_cons.mp hnodup).1
          intro hq1
          exact this (hq1 ▸ List.mem_map_of_mem Prod.fst hq)
        show getKey (deep_merge strat (deepMergeEntry strat b k' v') rest) k' = some v'
        rw [deep_merge_getKey_not_mem strat _ rest k' hnot,
          deepMergeEntry_scalar strat b k' v' hv, getKey_setKey_self]
      · have hrest : getKey rest k = some v := by
          simpa [getKey, hk] using h
        have := ih (b := deepMergeEntry strat b k' v')
          ((List.nodup_cons.mp hnodup).2) hrest
        exact this

/-- In the env-override merge any non-mapping override value (including
`None` and lists) clobbers the binding of `k`. -/
theorem resolverDeepMerge_replaces (b o : Dict) (k : String) (v : Value)
    (hnodup : (o.map Prod.fst).Nodup) (h : getKey o k = some v)
    (hv : ∀ od, v ≠ Value.dict od) :
    getKey (resolverDeepMerge b o) k = some v := by
  induction o generalizing b with
  | nil => simp [getKey] at h
  | cons p rest ih =>
      obtain ⟨k', v'⟩ := p
      by_cases hk : k' = k
      · subst hk
        have hv' : v' = v := by
          simp [getKey] at h; exact h
        subst hv'
        have hnot : ∀ q ∈ rest, q.1 ≠ k' := by
          intro q hq
          have : k' ∉ rest.map Prod.fst := by
            simpa using (List.nodup_cons.mp hnodup).1
          intro hq1
          exact this (hq1 ▸ List.mem_map_of_mem Prod.fst hq)
        show getKey (resolverDeepMerge (resolverDeepMergeEntry b k' v') rest) k' = some v'
        rw [resolverDeepMerge_getKey_not_mem _ rest k' hnot,
          resolverDeepMergeEntry_nondict b k' v' hv, getKey_setKey_self]
      · have hrest : getKey rest k = some v := by
          simpa [getKey, hk] using h
        exact ih (b := resolverDeepMergeEntry b k' v')
          ((List.nodup_cons.mp hnodup).2) hrest

/-- C3 (amended): in the scope merge `None` never clobbers while the
falsy scalars `0`, `false`, `""` do; in the environment-override merge
the falsy scalars clobber as well **and so does `None`**, and lists are
wholesale-replaced — so besides the marketplaces list strategy, the two
merges also differ in their treatment of `None`. -/
theorem merge_none_and_falsy_semantics :
    (∀ (strat : Option ListStrat) (b o : Dict) (k : String),
      (o.map Prod.fst).Nodup → getKey o k = some .null →
      getKey (deep_merge strat b o) k = getKey b k) ∧
    (∀ (strat : Option ListStrat) (b o : Dict) (k : String) (v : Value),
      (o.map Prod.fst).Nodup → getKey o k = some v →
      (v = .int 0 ∨ v = .bool false ∨ v = .str "") →
      getKey (deep_merge strat b o) k = some v) ∧
    (∀ (b o : Dict) (k : String),
      (o.map Prod.fst).Nodup → getKey o k = some .null →
      getKey (resolverDeepMerge b o) k = some .null) ∧
    (∀ (b o : Dict) (k : String) (v : Value),
      (o.map Prod.fst).Nodup → getKey o k = some v →
      (v = .int 0 ∨ v = .bool false ∨ v = .str "") →
      getKey (resolverDeepMerge b o) k = some v) ∧
    (∀ (b o : Dict) (k : String) (ol : List Value),
      (o.map Prod.fst).Nodup → getKey o k = some (.list ol) →
      getKey (resolverDeepMerge b o) k = some (.list ol)) := by
  refine ⟨?_, ?_, ?_, ?_, ?_⟩
  · intro strat b o k hn h
    exact deep_merge_none_preserves strat b o k hn h
  · intro strat b o k v hn h hv
    refine deep_merge_scalar_replaces strat b o k v hn h ?_
    rcases hv with h1 | h1 | h1 <;> subst h1 <;> rfl
  · intro b o k hn h
    exact resolverDeepMerge_replaces b o k .null hn h (by intro od hc; cases hc)
  · intro b o k v hn h hv
    refine resolverDeepMerge_replaces b o k v hn h ?_
    rcases hv with h1 | h1 | h1 <;> subst h1 <;> intro od hc <;> cases hc
  · intro b o k ol hn h
    exact resolverDeepMerge_replaces b o k (.list ol) hn h (by intro od hc; cases hc)

/-- C3 witness: both merges at concrete inputs, exercising the `None`
skip, the falsy-scalar replacement and the list replacement. -/
theorem merge_none_and_falsy_semantics_witness :
    getKey (deep_merge none [("a", .int 1)] [("a", .null)]) "a" = some (.int 1) ∧
    getKey (deep_merge none [("a", .int 1)] [("a", .int 0)]) "a" = some (.int 0) ∧
    getKey (resolverDeepMerge [("a", .int 1)] [("a", .null)]) "a" = some .null ∧
    getKey (resolverDeepMerge [("a", .int 1)] [("a", .bool false)]) "a"
      = some (.bool false) ∧
    getKey (resolverDeepMerge [("a", .list [.int 1])] [("a", .list [])]) "a"
      = some (.list []) := by
  have h := merge_none_and_falsy_semantics
  refine ⟨?_, ?_, ?_, ?_, ?_⟩
  · exact (h.1 none [("a", .int 1)] [("a", .null)] "a" (by simp) rfl).trans rfl
  · exact h.2.1 none [("a", .int 1)] [("a", .int 0)] "a" (.int 0) (by simp) rfl
      (Or.inl rfl)
  · exact h.2.2.1 [("a", .int 1)] [("a", .null)] "a" (by simp) rfl
  · exact h.2.2.2.1 [("a", .int 1)] [("a", .bool false)] "a" (.bool false)
      (by simp) rfl (Or.inr (Or.inl rfl))
  · exact h.2.2.2.2 [("a", .list [.int 1])] [("a", .list [])] "a" [] (by simp) rfl

/-- C3 counterexample: in the environment-override merge a `None` value
*does* replace a previously set value (`1` at key `a` becomes `None`),
while the scope merge preserves it — refuting "in both merges a None
value never replaces a previously set value" and "the two merges differ
only in list handling". -/
theorem env_merge_none_clobbers :
    resolverDeepMerge [("a", .int 1)] [("a", .null)] = [("a", .null)] ∧
    deep_merge (some configListMerge) [("a", .int 1)] [("a", .null)]
      = [("a", .int 1)] := ⟨rfl, rfl⟩

/-- C8 (amended): `parse_source` fails on every input stripping to the
empty string; classification is ordered with no backtracking —
an owner/repo-shaped trimmed input always yields `GithubSource` (never
Git or Local); a non-github-shaped input recognised by the git test
(`git@`/`git://` prefix, `.git` suffix, or http(s) URL with host) yields
`GitSource` when it starts with `https://`, `http://`, `git@` or
`git://`, and otherwise a ParseError (the `GitUrl` pattern rejects it —
e.g. a bare `.git` suffix); everything else is resolved as a filesystem
path that must exist as a directory, else ParseError. -/
theorem parse_source_classification :
    (∀ (fs : Fs) (wd s : String), pyStrip s = "" →
      parse_source fs wd s = .err (.sourceParse s "Marketplace source cannot be empty.")) ∧
    (∀ (fs : Fs) (wd s : String), isGithubShape (pyStrip s) = true →
      parse_source fs wd s = .ok (.githubSrc (pyStrip s))) ∧
    (∀ (fs : Fs) (wd s : String), pyStrip s ≠ "" →
      isGithubShape (pyStrip s) = false → isGitLike (pyStrip s) = true →
      gitUrlPatternOk (pyStrip s) = true →
      parse_source fs wd s = .ok (.gitSrc (pyStrip s))) ∧
    (∀ (fs : Fs) (wd s : String), pyStrip s ≠ "" →
      isGithubShape (pyStrip s) = false → isGitLike (pyStrip s) = true →
      gitUrlPatternOk (pyStrip s) = false →
      parse_source fs wd s = .err (.sourceParse s "Invalid git repository URL")) ∧
    (∀ (fs : Fs) (wd s : String), pyStrip s ≠ "" →
      isGithubShape (pyStrip s) = false → isGitLike (pyStrip s) = false →
      parse_source fs wd s =
        (if fs.isDir (resolvePath wd (pyStrip s)) then
          .ok (.localSrc (resolvePath wd (pyStrip s)))
        else .err (.sourceParse s "Invalid local marketplace path"))) := by
  refine ⟨?_, ?_, ?_, ?_, ?_⟩
  · intro fs wd s h0
    simp [parse_source, h0]
  · intro fs wd s hshape
    have h0 : pyStrip s ≠ "" := by
      intro h0
      rw [h0] at hshape
      exact absurd hshape (by simp [isGithubShape])
    simp [parse_source, h0, hshape]
  · intro fs wd s h0 hshape hgit hpat
    simp [parse_source, h0, hshape, hgit, hpat]
  · intro fs wd s h0 hshape hgit hpat
    simp [parse_source, h0, hshape, hgit, hpat]
  · intro fs wd s h0 hshape hgit
    simp [parse_source, h0, hshape, hgit]

/-- C8 witness: each classification branch at a concrete input. -/
theorem parse_source_classification_witness :
    parse_source fs0 "/w" "   " = .err (.sourceParse "   " "Marketplace source cannot be empty.") ∧
    parse_source fs0 "/w" "owner/repo" = .ok (.githubSrc "owner/repo") ∧
    parse_source fs0 "/w" "git@host:r" = .ok (.gitSrc "git@host:r") ∧
    parse_source fs0 "/w" "http://host/x" = .ok (.gitSrc "http://host/x") ∧
    parse_source fs0 "/w" "foo.git" = .err (.sourceParse "foo.git" "Invalid git repository URL") ∧
    parse_source ⟨fun p => p = "/w/somedir"⟩ "/w" "somedir" = .ok (.localSrc "/w/somedir") := by
  have h := parse_source_classification
  refine ⟨?_, ?_, ?_, ?_, ?_, ?_⟩
  · exact h.1 fs0 "/w" "   " rfl
  · exact h.2.1 fs0 "/w" "owner/repo" rfl
  · exact h.2.2.1 fs0 "/w" "git@host:r" (by decide) rfl rfl rfl
  · exact h.2.2.1 fs0 "/w" "http://host/x" (by decide) rfl rfl rfl
  · exact h.2.2.2.1 fs0 "/w" "foo.git" (by decide) rfl rfl rfl
  · exact (h.2.2.2.2 ⟨fun p => p = "/w/somedir"⟩ "/w" "somedir" (by decide) rfl rfl).trans
      (by rfl)

/-- C8 counterexample: `"foo.git"` has the `.git` suffix, so the claim
says it yields `GitSource`; the code routes it to the git branch but the
`GitUrl` pattern rejects it, so `parse_source` returns a ParseError
instead (and it is not treated as a filesystem path either). -/
theorem parse_source_bare_git_suffix :
    strEndsWith (pyStrip "foo.git") ".git" = true ∧
    parse_source fs0 "/w" "foo.git"
      = .err (.sourceParse "foo.git" "Invalid git repository URL") :=
  ⟨rfl, rfl⟩

/-- C9: the two scoped loaders disagree on Python-falsy non-mapping
roots.  `FileConfigStore._load_scope_config` (store.py) rejects every
non-mapping root with a ValidationError, as the claim states;
`loader.py`'s `_load_scope_config`, through `yaml.safe_load(raw) or {}`,
silently turns the falsy roots `false`, `0`, `""` (and `[]`) into the
empty document and succeeds, only rejecting truthy non-mapping roots. -/
theorem loader_falsy_root_divergence :
    store_load_scope_config fs0 .global (.yamlOk (some (.bool false)))
      = .err (.validation .global none
          "Configuration root must be a mapping of keys to values.") ∧
    store_load_scope_config fs0 .global (.yamlOk (some (.int 0)))
      = .err (.validation .global none
          "Configuration root must be a mapping of keys to values.") ∧
    store_load_scope_config fs0 .global (.yamlOk (some (.str "")))
      = .err (.validation .global none
          "Configuration root must be a mapping of keys to values.") ∧
    loader_load_scope_config fs0 .global (.yamlOk (some (.bool false))) = .ok ⟨[]⟩ ∧
    loader_load_scope_config fs0 .global (.yamlOk (some (.int 0))) = .ok ⟨[]⟩ ∧
    loader_load_scope_config fs0 .global (.yamlOk (some (.str ""))) = .ok ⟨[]⟩ ∧
    loader_load_scope_config fs0 .global (.yamlOk (some (.str "x")))
      = .err (.validation .global none
          "Configuration root must be a mapping of keys to values.") ∧
    loader_load_scope_config fs0 .global (.yamlOk (some (.list [.str "a"])))
      = .err (.validation .global none
          "Configuration root must be a mapping of keys to values.") :=
  ⟨rfl, rfl, rfl, rfl, rfl, rfl, rfl, rfl⟩

theorem length_filterMap_isSome {α β : Type} (l : List α) (f : α → Option β) :
    (l.filterMap f).length = (l.filter (fun a => (f a).isSome)).length := by
  induction l with
  | nil => rfl
  | cons a rest ih =>
      cases h : f a <;> simp [List.filterMap_cons, h, ih, List.filter_cons]

/-- C4 (amended): a persisted install state whose `install_location`
holds no manifest file is tolerated by GET *and* LIST — the entry is
returned/ listed with an empty description and zero bundles.  GET's hard
NotFound arises exactly when the install-state record itself is missing,
and LIST skips exactly the entries whose state record is missing. -/
theorem get_list_tolerate_missing_manifest :
    (∀ (w : MWorld) (name : String) (st : MarketplaceState),
      lookupAssoc w.states name = some st →
      lookupAssoc w.manifests st.install_location = none →
      marketplaceGet w name = .ok ⟨st.name, "", st.source, 0⟩) ∧
    (∀ (w : MWorld) (name : String),
      lookupAssoc w.states name = none →
      marketplaceGet w name
        = .err (.notFound name ("Marketplace '" ++ name ++ "' state not found"))) ∧
    (∀ w : MWorld, ∃ l, marketplaceList w = .ok l ∧
      l.length = ((effectiveConfigs w).filter
        (fun c => (lookupAssoc w.states c.name).isSome)).length ∧
      ∀ c ∈ effectiveConfigs w, ∀ st : MarketplaceState,
        lookupAssoc w.states c.name = some st →
        lookupAssoc w.manifests st.install_location = none →
        (⟨st.name, "", st.source, 0⟩ : MarketplaceInfo) ∈ l) := by
  refine ⟨?_, ?_, ?_⟩
  · intro w name st h1 h2
    simp [marketplaceGet, h1, attachMarketplaceInfo, h2]
  · intro w name h
    simp [marketplaceGet, h]
  · intro w
    refine ⟨_, rfl, ?_, ?_⟩
    · rw [length_filterMap_isSome]
      have hsome : ∀ c : MarketplaceConfig,
          ((lookupAssoc w.states c.name).map (attachMarketplaceInfo w)).isSome
            = (lookupAssoc w.states c.name).isSome := by
        intro c; cases lookupAssoc w.states c.name <;> rfl
      simp only [hsome]
    · intro c hc st h1 h2
      refine List.mem_filterMap.mpr ⟨c, hc, ?_⟩
      simp [h1, attachMarketplaceInfo, h2]

/-- A world with one configured marketplace `m` whose install state
points at `/loc`, where no manifest file exists. -/
def w4 : MWorld :=
  ⟨none, some [⟨"m", .githubSrc "o/r"⟩], none,
    [("m", ⟨"m", .githubSrc "o/r", "/loc", "t"⟩)], ["/loc"], []⟩

/-- C4 witness: the amended behaviour at a concrete world. -/
theorem get_list_tolerate_missing_manifest_witness :
    marketplaceGet w4 "m" = .ok ⟨"m", "", .githubSrc "o/r", 0⟩ ∧
    marketplaceGet w4 "other"
      = .err (.notFound "other" ("Marketplace '" ++ "other" ++ "' state not found")) := by
  have h := get_list_tolerate_missing_manifest
  exact ⟨h.1 w4 "m" ⟨"m", .githubSrc "o/r", "/loc", "t"⟩ rfl rfl, h.2.1 w4 "other" rfl⟩

/-- C4 counterexample: in `w4` the name `m` has persisted install state
but no readable manifest at its `install_location`, yet GET succeeds
(no hard NotFound) and LIST keeps the entry rather than skipping it. -/
theorem get_missing_manifest_not_notfound :
    marketplaceGet w4 "m" = .ok ⟨"m", "", .githubSrc "o/r", 0⟩ ∧
    marketplaceList w4 = .ok [⟨"m", "", .githubSrc "o/r", 0⟩] := ⟨rfl, rfl⟩

/-- C10: when the input parses as a source but no configured entry's
source equals it by value, REMOVE fails with NotFound and changes
nothing — the input is never retried as a literal name. -/
theorem remove_source_no_name_fallback
    (w : MWorld) (fs : Fs) (wd input : String) (src : MarketplaceSource)
    (scope : Option MScope)
    (hparse : parse_source fs wd input = .ok src)
    (hnone : ∀ c ∈ effectiveConfigs w, c.source ≠ src) :
    marketplaceRemove w fs wd input scope =
      (w, .err (.notFound input
        ("Marketplace with source '" ++ input ++ "' not found"))) := by
  have hfind : (effectiveConfigs w).find? (fun c => c.source = src) = none := by
    rw [List.find?_eq_none]
    intro c hc
    simpa using hnone c hc
  simp [marketplaceRemove, resolveMarketplaceName, hparse, hfind]

/-- A world whose sole entry is *named* `owner/repo` (a name that itself
matches the GitHub owner/repo shape) with a git source. -/
def w10 : MWorld :=
  ⟨none, some [⟨"owner/repo", .gitSrc "git@h:r"⟩], none, [], [], []⟩

/-- C10 witness: removing by the string `owner/repo` parses as a GitHub
source, matches no entry's source, and fails — even though an entry with
that *name* exists. -/
theorem remove_source_no_name_fallback_witness :
    parse_source fs0 "/w" "owner/repo" = .ok (.githubSrc "owner/repo") ∧
    (⟨"owner/repo", .gitSrc "git@h:r"⟩ : MarketplaceConfig) ∈ effectiveConfigs w10 ∧
    marketplaceRemove w10 fs0 "/w" "owner/repo" none
      = (w10, .err (.notFound "owner/repo"
          ("Marketplace with source '" ++ "owner/repo" ++ "' not found"))) := by
  refine ⟨rfl, by decide, ?_⟩
  exact remove_source_no_name_fallback w10 fs0 "/w" "owner/repo"
    (.githubSrc "owner/repo") none rfl (by decide)

theorem findNameIdx_spec (l : List MarketplaceConfig) (name : String) (i : Nat)
    (h : findNameIdx l name = some i) :
    ∃ c, l[i]? = some c ∧ c.name = name := by
  induction l generalizing i with
  | nil => simp [findNameIdx] at h
  | cons c rest ih =>
      by_cases hc : c.name = name
      · simp [findNameIdx, hc] at h
        subst h
        exact ⟨c, by simp, hc⟩
      · simp [findNameIdx, hc] at h
        cases hrec : findNameIdx rest name with
        | none => rw [hrec] at h; simp at h
        | some j =>
            rw [hrec] at h
            simp at h
            subst h
            obtain ⟨c', hc', hn⟩ := ih j hrec
            exact ⟨c', by simpa using hc', hn⟩

/-- A successful `_remove_from_scope` returns an entry carrying the
requested name and touches nothing but the written scope's list. -/
theorem removeFromScope_ok (w : MWorld) (name : String) (sc : MScope)
    (w1 : MWorld) (removed : MarketplaceConfig)
    (h : removeFromScope w name sc = .ok (w1, removed)) :
    removed.name = name ∧ w1.states = w.states ∧ w1.dirs = w.dirs ∧
    w1.manifests = w.manifests := by
  unfold removeFromScope at h
  split at h
  · simp at h
  next l hs =>
    split at h
    · simp at h
    · split at h
      · simp at h
      next i hf =>
        split at h
        next c hg =>
          simp only [Result.ok.injEq, Prod.mk.injEq] at h
          obtain ⟨hw, hr⟩ := h
          obtain ⟨c', hc', hn⟩ := findNameIdx_spec l name i hf
          have hcc : c' = c := by
            rw [hc'] at hg; exact Option.some.inj hg
          subst hcc
          subst hr
          refine ⟨hn, ?_, ?_, ?_⟩ <;> (rw [← hw]; cases sc <;> simp [setScopeMps])
        · simp at h

/-- A successful `remove_marketplace` (any-scope variant included) has
the same frame properties. -/
theorem removeMarketplaceCfg_ok (w : MWorld) (name : String)
    (scope : Option MScope) (w1 : MWorld) (removed : MarketplaceConfig)
    (h : removeMarketplaceCfg w name scope = .ok (w1, removed)) :
    removed.name = name ∧ w1.states = w.states ∧ w1.dirs = w.dirs ∧
    w1.manifests = w.manifests := by
  cases scope with
  | some sc => exact removeFromScope_ok w name sc w1 removed h
  | none =>
      unfold removeMarketplaceCfg at h
      split at h
      next sc heq => cases heq
      next =>
        split at h
        next r hp =>
            simp only [Result.ok.injEq] at h
            subst h
            exact removeFromScope_ok w name .project w1 removed hp
        next e1 hp =>
            split at h
            next r hg =>
                simp only [Result.ok.injEq] at h
                subst h
                exact removeFromScope_ok w name .global w1 removed hg
            next e2 hg => simp at h

/-- C7: removing a name that has a config entry but no install-state
record succeeds: the config entry is removed and returned, the missing
state is not an error, and state/directory cleanup are no-ops. -/
theorem remove_without_state_succeeds
    (w w1 : MWorld) (fs : Fs) (wd input : String) (scope : Option MScope)
    (e : MError) (removed : MarketplaceConfig)
    (hparse : parse_source fs wd input = .err e)
    (hremove : removeMarketplaceCfg w input scope = .ok (w1, removed))
    (hstate : lookupAssoc w1.states input = none) :
    marketplaceRemove w fs wd input scope
      = (w1, .ok ⟨removed.name, "", removed.source, 0⟩) ∧
    removed.name = input ∧
    w1.states = w.states ∧ w1.dirs = w.dirs ∧ w1.manifests = w.manifests := by
  have hp := removeMarketplaceCfg_ok w input scope w1 removed hremove
  refine ⟨?_, hp.1, hp.2.1, hp.2.2.1, hp.2.2.2⟩
  simp [marketplaceRemove, resolveMarketplaceName, hparse, hremove, hstate]

/-- A world with a project-scope config entry `mp` and an empty data
store. -/
def w7 : MWorld := ⟨none, some [⟨"mp", .githubSrc "o/r"⟩], none, [], [], []⟩

/-- C7 witness: removing `mp` from `w7` (no state record) succeeds and
returns the removed name. -/
theorem remove_without_state_succeeds_witness :
    marketplaceRemove w7 fs0 "/w" "mp" none
      = ({ w7 with projectMps := some [] }, .ok ⟨"mp", "", .githubSrc "o/r", 0⟩) := by
  have h := remove_without_state_succeeds w7 { w7 with projectMps := some [] }
    fs0 "/w" "mp" none (.sourceParse "mp" "Invalid local marketplace path")
    ⟨"mp", .githubSrc "o/r"⟩ rfl rfl rfl
  exact h.1

/-- C6: when the validated manifest's name or the resolved source equals
(by value) an entry visible in any scope, the ADD pipeline stops at the
duplicate check with AlreadyExists naming the conflict, and the world —
config lists, state store, permanent install directories — is returned
unchanged. -/
theorem duplicate_add_is_pure_error
    (w : MWorld) (fs : Fs) (wd raw : String) (scope : MScope)
    (fetchRes : Result Unit MError) (fdir : String) (mf : ManifestFile)
    (now : String) (src : MarketplaceSource) (manifest : MarketplaceManifest)
    (hparse : parse_source fs wd raw = .ok src)
    (hfetch : fetchRes = .ok ())
    (hval : load_and_validate_marketplace fdir mf = .ok manifest)
    (hdup : has_marketplace w manifest.name src = true) :
    marketplaceAdd w fs wd raw scope fetchRes fdir mf now =
      (w, .err (.alreadyExists manifest.name (displaySource src)
        ("Marketplace with name '" ++ manifest.name ++ "' or source '" ++
          displaySource src ++ "' already exists"))) := by
  subst hfetch
  cases src <;> simp [marketplaceAdd, hparse, hval, hdup]

/-- A world with a global-scope entry `dup` sourced from `o/r`. -/
def w6 : MWorld := ⟨some [⟨"dup", .githubSrc "o/r"⟩], none, none, [], [], []⟩

/-- A syntactically valid manifest value named `dup2`. -/
def mval6 : Value :=
  .dict [("name", .str "dup2"), ("version", .str "1.0.0"),
    ("description", .str "d"), ("owner", .dict [("name", .str "me")]),
    ("bundles", .list [])]

/-- C6 witness: adding `o/r` again (same source, different manifest name)
fails with AlreadyExists and leaves the world untouched. -/
theorem duplicate_add_is_pure_error_witness :
    marketplaceAdd w6 fs0 "/w" "o/r" .project (.ok ()) "/tmp/f" (.json mval6) "t" =
      (w6, .err (.alreadyExists "dup2" (displaySource (.githubSrc "o/r"))
        ("Marketplace with name '" ++ "dup2" ++ "' or source '" ++
          displaySource (.githubSrc "o/r") ++ "' already exists"))) := by
  exact duplicate_add_is_pure_error w6 fs0 "/w" "o/r" .project (.ok ()) "/tmp/f"
    (.json mval6) "t" (.githubSrc "o/r")
    ⟨"dup2", "1.0.0", "d", ⟨"me", none⟩, []⟩ rfl rfl rfl rfl

/-- C1 (amended): on a successfully loaded existing scope document,
`add_marketplace` writes back a document whose marketplace list is the
old list with the entry appended, but which contains *only* the
`marketplaces` key — every unrelated key of the original document is
dropped, not preserved. -/
theorem add_marketplace_writes_marketplaces_only
    (fs : Fs) (scope : MScope) (d : Dict) (m : ScopeConfig)
    (entry : MarketplaceConfig)
    (hload : validateScopeDoc fs (toConfigScope scope) d = .ok m) :
    fileAddMarketplace fs scope (some d) entry
      = .ok [("marketplaces",
          .list (m.marketplaces.map dumpConfigEntry ++ [dumpConfigEntry entry]))] ∧
    ∀ k, k ≠ "marketplaces" →
      getKey [("marketplaces",
        .list (m.marketplaces.map dumpConfigEntry ++ [dumpConfigEntry entry]))] k
        = none := by
  constructor
  · simp [fileAddMarketplace, hload]
  · intro k hk
    simp [getKey, Ne.symm hk]

/-- C1 witness: the amended behaviour at a concrete document with an
unrelated key. -/
theorem add_marketplace_writes_marketplaces_only_witness :
    validateScopeDoc fs0 (toConfigScope .global) [("other", .int 1)] = .ok ⟨[]⟩ ∧
    fileAddMarketplace fs0 .global (some [("other", .int 1)])
        ⟨"m", .githubSrc "o/r"⟩
      = .ok [("marketplaces", .list [dumpConfigEntry ⟨"m", .githubSrc "o/r"⟩])] ∧
    getKey [("marketplaces", .list [dumpConfigEntry ⟨"m", .githubSrc "o/r"⟩])] "other"
      = none := by
  have h := add_marketplace_writes_marketplaces_only fs0 .global [("other", .int 1)]
    ⟨[]⟩ ⟨"m", .githubSrc "o/r"⟩ rfl
  exact ⟨rfl, h.1, h.2 "other" (by decide)⟩

/-- C1 counterexample: the scope document `{other: 1}` validates, yet the
document written by `add_marketplace` is `{marketplaces: [entry]}` — the
unrelated key `other` is gone, refuting "every unrelated key of the
document unchanged". -/
theorem add_marketplace_drops_unrelated_keys :
    fileAddMarketplace fs0 .global (some [("other", .int 1)]) ⟨"m", .githubSrc "o/r"⟩
      = .ok [("marketplaces", .list [dumpConfigEntry ⟨"m", .githubSrc "o/r"⟩])] ∧
    getKey [("marketplaces", .list [dumpConfigEntry ⟨"m", .githubSrc "o/r"⟩])] "other"
      = none ∧
    getKey [("other", .int 1)] "other" = some (.int 1) := ⟨rfl, rfl, rfl⟩

theorem getIdx_setIdx_self (m : List (String × Nat)) (k : String) (i : Nat) :
    getIdx (setIdx m k i) k = some i := by
  induction m with
  | nil => simp [setIdx, getIdx]
  | cons p rest ih =>
      obtain ⟨k', i'⟩ := p
      by_cases h : k' = k
      · simp [setIdx, getIdx, h]
      · simp [setIdx, getIdx, h, ih]

theorem getIdx_setIdx_ne (m : List (String × Nat)) (k' k : String) (i : Nat)
    (h : k' ≠ k) : getIdx (setIdx m k' i) k = getIdx m k := by
  have h2 : k ≠ k' := Ne.symm h
  induction m with
  | nil => simp [setIdx, getIdx, h]
  | cons p rest ih =>
      obtain ⟨k'', i''⟩ := p
      by_cases h3 : k'' = k'
      · subst h3
        simp [setIdx, getIdx, h, h2]
      · by_cases h4 : k'' = k <;> simp [setIdx, getIdx, h3, h4, h2, ih]

theorem nodup_getElem?_inj {α : Type} {l : List α} (h : l.Nodup) {i j : Nat}
    {a : α} (hi : l[i]? = some a) (hj : l[j]? = some a) : i = j := by
  obtain ⟨hi1, hi2⟩ := List.getElem?_eq_some_iff.mp hi
  obtain ⟨hj1, hj2⟩ := List.getElem?_eq_some_iff.mp hj
  have h2 := List.nodup_iff_injective_getElem.mp h
  have h3 := @h2 ⟨i, hi1⟩ ⟨j, hj1⟩ (by simp [hi2, hj2])
  simpa using congrArg Fin.val h3

theorem set_of_getElem?_self {α : Type} {l : List α} {i : Nat} {a : α}
    (h : l[i]? = some a) : l.set i a = l := by
  apply List.ext_getElem?
  intro n
  by_cases hn : n = i
  · subst hn
    rw [List.getElem?_set_self (List.getElem?_eq_some_iff.mp h).1, h]
  · rw [List.getElem?_set_ne (Ne.symm hn)]

/-- Appending an entry whose name is fresh keeps the merge-state
invariant, and the merged list grows by exactly that entry. -/
theorem mmAppend_fresh (st : MMState) (e : Value) (n : String)
    (hst : GoodState st) (hn : extractMarketplaceName e = some n)
    (hfresh : ∀ x ∈ st.1, extractMarketplaceName x ≠ some n) :
    (mmAppend st e).1 = st.1 ++ [e] ∧ GoodState (mmAppend st e) := by
  obtain ⟨⟨hall, hnd⟩, hix⟩ := hst
  have h1 : mmAppend st e = (st.1 ++ [e], setIdx st.2 n st.1.length) := by
    simp [mmAppend, hn]
  rw [h1]
  refine ⟨rfl, ⟨⟨?_, ?_⟩, ?_⟩⟩
  · intro x hx
    rcases List.mem_append.mp hx with h | h
    · exact hall x h
    · simp only [List.mem_singleton] at h
      subst h
      simp [hn]
  · rw [List.map_append, List.nodup_append]
    refine ⟨hnd, by simp, ?_⟩
    intro o ho ho2
    simp only [List.map_cons, List.map_nil, List.mem_singleton, hn] at ho2
    subst ho2
    obtain ⟨x, hx, hxe⟩ := List.mem_map.mp ho
    exact hfresh x hx hxe
  · intro m
    constructor
    · intro i hgi
      by_cases hm : m = n
      · subst hm
        rw [getIdx_setIdx_self] at hgi
        obtain rfl := Option.some.inj hgi
        exact ⟨e, List.getElem?_concat_length st.1 e, hn⟩
      · rw [getIdx_setIdx_ne _ _ _ _ (fun hc => hm hc.symm)] at hgi
        obtain ⟨x, hx, hxe⟩ := (hix m).1 i hgi
        have hilt : i < st.1.length := (List.getElem?_eq_some_iff.mp hx).1
        exact ⟨x, by rw [List.getElem?_append_left hilt]; exact hx, hxe⟩
    · intro hgn x hx
      by_cases hm : m = n
      · subst hm
        rw [getIdx_setIdx_self] at hgn
        cases hgn
      · rw [getIdx_setIdx_ne _ _ _ _ (fun hc => hm hc.symm)] at hgn
        rcases List.mem_append.mp hx with h | h
        · exact (hix m).2 hgn x h
        · simp only [List.mem_singleton] at h
          subst h
          rw [hn]
          intro hc
          exact hm (Option.some.inj hc).symm

/-- One override step of `_merge_marketplaces` computes exactly the
spec's overwrite-in-place-or-append step, and preserves the invariant. -/
theorem mmStep_spec (st : MMState) (e : Value) (n : String)
    (hst : GoodState st) (hn : extractMarketplaceName e = some n) :
    (mmStep st e).1 = specMergeEntry st.1 e ∧ GoodState (mmStep st e) := by
  obtain ⟨⟨hall, hnd⟩, hix⟩ := hst
  cases hgi : getIdx st.2 n with
  | some i =>
      obtain ⟨e', he', hne'⟩ := (hix n).1 i hgi
      have hilt : i < st.1.length := (List.getElem?_eq_some_iff.mp he').1
      have hmem : e' ∈ st.1 := List.getElem?_mem he'
      have hany : st.1.any (fun x => extractMarketplaceName x = some n) = true := by
        rw [List.any_eq_true]
        exact ⟨e', hmem, by simp [hne']⟩
      have hstep : mmStep st e = (st.1.set i e, st.2) := by
        simp [mmStep, hn, hgi]
      have hset : st.1.set i e
          = st.1.map (fun x => if extractMarketplaceName x = some n then e else x) := by
        apply List.ext_getElem?
        intro j
        by_cases hj : j = i
        · subst hj
          rw [List.getElem?_set_self hilt, List.getElem?_map, he']
          simp [hne']
        · rw [List.getElem?_set_ne (fun hc => hj hc.symm), List.getElem?_map]
          cases hx : st.1[j]? with
          | none => rfl
          | some x =>
              have hxn : extractMarketplaceName x ≠ some n := by
                intro hc
                have h1 : (st.1.map extractMarketplaceName)[i]? = some (some n) := by
                  rw [List.getElem?_map, he']
                  simp [hne']
                have h2 : (st.1.map extractMarketplaceName)[j]? = some (some n) := by
                  rw [List.getElem?_map, hx]
                  simp [hc]
                exact hj (nodup_getElem?_inj hnd h2 h1)
              simp [hxn]
      have hmap : (st.1.set i e).map extractMarketplaceName
          = st.1.map extractMarketplaceName := by
        rw [List.map_set]
        apply set_of_getElem?_self
        rw [List.getElem?_map, he']
        simp [hn, hne']
      refine ⟨?_, ⟨⟨?_, ?_⟩, ?_⟩⟩
      · rw [hstep]
        simp only [specMergeEntry, hn, hany, if_true]
        exact hset
      · rw [hstep]
        intro x hx
        have hx2 : extractMarketplaceName x
            ∈ (st.1.set i e).map extractMarketplaceName :=
          List.mem_map_of_mem _ hx
        rw [hmap] at hx2
        obtain ⟨y, hy, hye⟩ := List.mem_map.mp hx2
        rw [← hye]
        exact hall y hy
      · rw [hstep]
        simpa [hmap] using hnd
      · rw [hstep]
        intro m
        constructor
        · intro j hgj
          obtain ⟨x, hxj, hxm⟩ := (hix m).1 j hgj
          by_cases hj : j = i
          · subst hj
            have hxe : x = e' := by
              rw [hxj] at he'
              exact Option.some.inj he'
            subst hxe
            have hmn : m = n := by
              rw [hxm] at hne'
              exact Option.some.inj hne'
            subst hmn
            exact ⟨e, by rw [List.getElem?_set_self hilt], hn⟩
          · exact ⟨x, by rw [List.getElem?_set_ne (fun hc => hj hc.symm)]; exact hxj, hxm⟩
        · intro hgn x hx
          intro hc
          have hx2 : extractMarketplaceName x
              ∈ (st.1.set i e).map extractMarketplaceName :=
            List.mem_map_of_mem _ hx
          rw [hmap] at hx2
          obtain ⟨y, hy, hye⟩ := List.mem_map.mp hx2
          exact (hix m).2 hgn y hy (by rw [hye, hc])
  | none =>
      have hnone : ∀ x ∈ st.1, extractMarketplaceName x ≠ some n := (hix n).2 hgi
      have hany : st.1.any (fun x => extractMarketplaceName x = some n) = false := by
        rw [List.any_eq_false]
        intro x hx
        simpa using hnone x hx
      have hstep : mmStep st e = mmAppend st e := by
        simp [mmStep, hn, hgi]
      obtain ⟨h1, h2⟩ := mmAppend_fresh st e n ⟨⟨hall, hnd⟩, hix⟩ hn hnone
      rw [hstep]
      refine ⟨?_, h2⟩
      rw [h1]
      simp [specMergeEntry, hn, hany]

/-- The override fold of `_merge_marketplaces` computes the spec's
entry-by-entry fold. -/
theorem mmFold_spec (o : List Value) (st : MMState) (hst : GoodState st)
    (ho : ∀ e ∈ o, (extractMarketplaceName e).isSome) :
    (o.foldl mmStep st).1 = o.foldl specMergeEntry st.1 ∧
    GoodState (o.foldl mmStep st) := by
  induction o generalizing st with
  | nil => exact ⟨rfl, hst⟩
  | cons e rest ih =>
      obtain ⟨n, hn⟩ := Option.isSome_iff_exists.mp (ho e (by simp))
      obtain ⟨h1, h2⟩ := mmStep_spec st e n hst hn
      simp only [List.foldl_cons]
      obtain ⟨h3, h4⟩ := ih (mmStep st e) h2 (fun x hx => ho x (by simp [hx]))
      exact ⟨by rw [h3, h1], h4⟩

/-- The base fold of `_merge_marketplaces` (`_append` over the base list)
reproduces the base list and establishes the invariant, provided the base
names are distinct. -/
theorem mmAppendFold (l : List Value) (st : MMState) (hst : GoodState st)
    (hl : ∀ e ∈ l, (extractMarketplaceName e).isSome)
    (hnd : (st.1.map extractMarketplaceName ++ l.map extractMarketplaceName).Nodup) :
    (l.foldl mmAppend st).1 = st.1 ++ l ∧ GoodState (l.foldl mmAppend st) := by
  induction l generalizing st with
  | nil => exact ⟨by simp, hst⟩
  | cons e rest ih =>
      obtain ⟨n, hn⟩ := Option.isSome_iff_exists.mp (hl e (by simp))
      have hfresh : ∀ x ∈ st.1, extractMarketplaceName x ≠ some n := by
        intro x hx hc
        rw [List.nodup_append] at hnd
        have hm1 : some n ∈ st.1.map extractMarketplaceName := by
          rw [← hc]
          exact List.mem_map_of_mem _ hx
        exact hnd.2.2 hm1 (by simp [hn])
      obtain ⟨h1, h2⟩ := mmAppend_fresh st e n hst hn hfresh
      simp only [List.foldl_cons]
      have hnd' : ((mmAppend st e).1.map extractMarketplaceName
          ++ rest.map extractMarketplaceName).Nodup := by
        rw [h1, List.map_append, List.append_assoc]
        simpa [hn] using hnd
      obtain ⟨h3, h4⟩ := ih (mmAppend st e) h2 (fun x hx => hl x (by simp [hx])) hnd'
      refine ⟨?_, h4⟩
      rw [h3, h1, List.append_assoc]
      rfl

/-- The spec-side fold appends wholesale when the incoming names are
fresh and distinct. -/
theorem specFold_append (l acc : List Value)
    (hl : ∀ e ∈ l, (extractMarketplaceName e).isSome)
    (hnd : (acc.map extractMarketplaceName ++ l.map extractMarketplaceName).Nodup) :
    l.foldl specMergeEntry acc = acc ++ l := by
  induction l generalizing acc with
  | nil => simp
  | cons e rest ih =>
      obtain ⟨n, hn⟩ := Option.isSome_iff_exists.mp (hl e (by simp))
      have hfresh : ∀ x ∈ acc, extractMarketplaceName x ≠ some n := by
        intro x hx hc
        rw [List.nodup_append] at hnd
        have hm1 : some n ∈ acc.map extractMarketplaceName := by
          rw [← hc]
          exact List.mem_map_of_mem _ hx
        exact hnd.2.2 hm1 (by simp [hn])
      have hany : acc.any (fun x => extractMarketplaceName x = some n) = false := by
        rw [List.any_eq_false]
        intro x hx
        simpa using hfresh x hx
      simp only [List.foldl_cons]
      have hstep : specMergeEntry acc e = acc ++ [e] := by
        simp [specMergeEntry, hn, hany]
      rw [hstep]
      have hnd' : ((acc ++ [e]).map extractMarketplaceName
          ++ rest.map extractMarketplaceName).Nodup := by
        rw [List.map_append, List.append_assoc]
        simpa [hn] using hnd
      rw [ih (acc ++ [e]) (fun x hx => hl x (by simp [hx])) hnd', List.append_assoc]
      rfl

/-- The merge-loop state is well formed at the start. -/
theorem goodState_nil : GoodState (([], []) : MMState) := by
  refine ⟨⟨by simp, by simp⟩, ?_⟩
  intro m
  constructor
  · intro i hgi
    simp [getIdx] at hgi
  · intro _ x hx
    simp at hx

/-- The scenario's GLOBAL marketplace entry (`repo: a/official`). -/
def gEntry : Value :=
  .dict [("name", .str "official"),
    ("source", .dict [("type", .str "github"), ("repo", .str "a/official")])]

/-- The scenario's PROJECT marketplace entry (`repo: a/official-fork`). -/
def pEntry : Value :=
  .dict [("name", .str "official"),
    ("source", .dict [("type", .str "github"), ("repo", .str "a/official-fork")])]

/-- Scenario GLOBAL scope document. -/
def gDoc : Dict := [("marketplaces", .list [gEntry])]

/-- Scenario PROJECT scope document. -/
def pDoc : Dict := [("marketplaces", .list [pEntry])]

/-- C2: with pairwise-distinct names per scope list, the implementation's
`index_by_name` merge over the scopes in global → project → user order
computes exactly the spec's overwrite-in-place-or-append fold; and in the
concrete GLOBAL `a/official` / PROJECT `a/official-fork` scenario the
document-level merge yields exactly one `official` entry, carrying the
fork repo, at position 0. -/
theorem marketplace_merge_in_place :
    (∀ bs ps us : List Value, GoodList bs → GoodList ps → GoodList us →
      mergeMarketplaces (mergeMarketplaces bs ps) us = specMergeScopes [bs, ps, us]) ∧
    getKey (merge_configs (some gDoc) (some pDoc) none) "marketplaces"
      = some (.list [pEntry]) := by
  constructor
  · intro bs ps us hb hp hu
    obtain ⟨hb1, hb2⟩ := mmAppendFold bs ([], []) goodState_nil hb.1
      (by simpa using hb.2)
    obtain ⟨hin1, hin2⟩ := mmFold_spec ps (bs.foldl mmAppend ([], [])) hb2 hp.1
    have hinner : mergeMarketplaces bs ps
        = ps.foldl specMergeEntry bs := by
      show (ps.foldl mmStep (bs.foldl mmAppend ([], []))).1 = _
      rw [hin1, hb1]
      simp
    have hinner_good : GoodList (mergeMarketplaces bs ps) := hin2.1
    obtain ⟨ho1, ho2⟩ := mmAppendFold (mergeMarketplaces bs ps) ([], [])
      goodState_nil hinner_good.1 (by simpa using hinner_good.2)
    obtain ⟨hout1, hout2⟩ := mmFold_spec us
      ((mergeMarketplaces bs ps).foldl mmAppend ([], [])) ho2 hu.1
    have houter : mergeMarketplaces (mergeMarketplaces bs ps) us
        = us.foldl specMergeEntry (mergeMarketplaces bs ps) := by
      show (us.foldl mmStep ((mergeMarketplaces bs ps).foldl mmAppend ([], []))).1 = _
      rw [hout1, ho1]
      simp
    have hbase : bs.foldl specMergeEntry [] = bs := by
      simpa using specFold_append bs [] hb.1 (by simpa using hb.2)
    rw [houter, hinner]
    show _ = us.foldl specMergeEntry (ps.foldl specMergeEntry (bs.foldl specMergeEntry []))
    rw [hbase]
  · have h1 : stripNoneDict gDoc = gDoc := by simp [stripNoneDict, gDoc, gEntry]
    have h2 : stripNoneDict pDoc = pDoc := by simp [stripNoneDict, pDoc, pEntry]
    have hm : merge_configs (some gDoc) (some pDoc) none
        = deep_merge (some configListMerge)
            (deep_merge (some configListMerge) [] (stripNoneDict gDoc))
            (stripNoneDict pDoc) := rfl
    rw [hm, h1, h2]
    rfl

/-- C2 witness: the general equivalence applied to the scenario lists,
plus the concrete document-level outcome. -/
theorem marketplace_merge_in_place_witness :
    GoodList [gEntry] ∧ GoodList [pEntry] ∧ GoodList ([] : List Value) ∧
    mergeMarketplaces (mergeMarketplaces [gEntry] [pEntry]) []
      = specMergeScopes [[gEntry], [pEntry], []] ∧
    mergeMarketplaces (mergeMarketplaces [gEntry] [pEntry]) [] = [pEntry] ∧
    getKey (merge_configs (some gDoc) (some pDoc) none) "marketplaces"
      = some (.list [pEntry]) := by
  have h := marketplace_merge_in_place
  refine ⟨?_, ?_, ?_, ?_, rfl, h.2⟩
  · exact ⟨by decide, by decide⟩
  · exact ⟨by decide, by decide⟩
  · exact ⟨by simp, by simp⟩
  · exact h.1 [gEntry] [pEntry] [] ⟨by decide, by decide⟩ ⟨by decide, by decide⟩
      ⟨by simp, by simp⟩

end Nova
